import Mathlib

set_option maxRecDepth 8000

/-!
Verification of the CoolQBot fflogs ranking module.

This file gives a shallow embedding, in Lean 4, of the two source files

  * src/coolqbot/plugin.py   (PluginData: config store and pickle blob cache)
  * src/plugins/fflogs/api.py (FFLogs: paginated fetch, per-day cache,
    multi-day aggregation, percentile table)

and proves properties of that embedding.  Conventions used throughout:

  * Python str is modelled by Lean String (a list of characters).
  * Python int is modelled by Nat or Int; Python float is modelled exactly
    by dyadic rationals together with an explicit IEEE-754 binary64
    round-to-nearest-even operation (see Dyadic below) where float
    behaviour matters, namely in the percentile-index computation.
  * datetime values are modelled as Int seconds on an absolute time line;
    timedelta(days=1) is +86400, datetime comparison is Int order, and
    the strftime year/month/day rendering of a midnight value is obtained
    through the standard civil-from-days conversion.
  * aiohttp responses are modelled by an HttpOutcome per page request;
    raised exceptions are modelled by an error result that aborts the
    computation, mirroring exception propagation.
  * the while-loop over pages is modelled with an explicit fuel parameter;
    running out of fuel is a distinguished outcome outside the behaviour
    of the Python code (which would simply keep requesting pages).
-/

/-! ## Decimal rendering

Models Python str(int) for nonnegative integers (used by the f-string that
builds a cache name) and the zero padding of strftime("%Y%m%d"). -/

/-- Decimal digits of a natural number, most significant first; models
Python str(n) for a nonnegative int. -/
def natToDigits (n : Nat) : List Char :=
  if h : n < 10 then [Nat.digitChar n]
  else natToDigits (n / 10) ++ [Nat.digitChar (n % 10)]
decreasing_by exact Nat.div_lt_self (by omega) (by norm_num)

/-- Value of a digit string, used to invert natToDigits. -/
def digitsVal (ds : List Char) : Nat :=
  ds.foldl (fun a c => a * 10 + (c.toNat - 48)) 0

/-- Left zero padding to width w; models the %Y / %m / %d zero padding of
strftime. -/
def padNum (w n : Nat) : List Char :=
  List.replicate (w - (natToDigits n).length) '0' ++ natToDigits n

/-- A calendar date as rendered by strftime: year, month, day fields. -/
structure DateYMD where
  year : Nat
  month : Nat
  day : Nat
deriving DecidableEq, Repr

/-- Bounds guaranteed by Python datetime (year is at most 9999, month and
day are two digits). -/
def ValidDate (d : DateYMD) : Prop :=
  d.year < 10000 ∧ d.month < 100 ∧ d.day < 100

/-- The eight characters produced by date.strftime("%Y%m%d"). -/
def ymdChars (d : DateYMD) : List Char :=
  padNum 4 d.year ++ padNum 2 d.month ++ padNum 2 d.day

/-- Embedding of the cache name built at api.py line 62:
the f-string boss_difficulty_job_YYYYMMDD. -/
def cache_name (boss difficulty job : Nat) (d : DateYMD) : String :=
  String.mk (natToDigits boss ++ '_' :: natToDigits difficulty ++
    '_' :: natToDigits job ++ '_' :: ymdChars d)

/-- Civil date of an epoch day number (standard civil-from-days algorithm);
models the year/month/day fields of a datetime sitting at that day. -/
def civilFromDays (z0 : Int) : DateYMD :=
  let z := z0 + 719468
  let era := Int.fdiv z 146097
  let doe := z - era * 146097
  let yoe := Int.fdiv (doe - Int.fdiv doe 1460 + Int.fdiv doe 36524 -
    Int.fdiv doe 146096) 365
  let y := yoe + era * 400
  let doy := doe - (365 * yoe + Int.fdiv yoe 4 - Int.fdiv yoe 100)
  let mp := Int.fdiv (5 * doy + 2) 153
  let d := doy - Int.fdiv (153 * mp + 2) 5 + 1
  let m := if mp < 10 then mp + 3 else mp - 9
  ⟨(if m ≤ 2 then y + 1 else y).toNat, m.toNat, d.toNat⟩

/-- Seconds in one day; timedelta(days=1) on the Int time line. -/
def secsPerDay : Int := 86400

/-- Cache name of a midnight time point t (seconds since epoch):
the strftime("%Y%m%d") rendering goes through civilFromDays. -/
def cacheNameAt (boss difficulty job : Nat) (t : Int) : String :=
  cache_name boss difficulty job (civilFromDays (Int.fdiv t secsPerDay))

/-! ## Ranking records and metrics -/

/-- One ranking record, with the three numeric fields consumed by
_get_whole_ranking (total, other_per_second_amount, raw_dps).  Python
passes additional attributes through untouched; they play no role in any
claim and are omitted.  The numeric values are modelled as Int. -/
structure RankingRecord where
  total : Int
  other_per_second_amount : Int
  raw_dps : Int
deriving DecidableEq, Repr

/-- The three dps type strings accepted by FFLogs.dps (api.py line 151
rejects every other value before _get_whole_ranking is reached). -/
inductive DpsType where
  | rdps
  | adps
  | pdps
deriving DecidableEq, Repr

/-- The record field selected by each dps type (api.py lines 107-119). -/
def selectField : DpsType → RankingRecord → Int
  | .rdps => fun r => r.total
  | .adps => fun r => r.other_per_second_amount
  | .pdps => fun r => r.raw_dps

/-- Descending comparison on the selected field; list.sort with
reverse=True sorts so that larger field values come first. -/
def recGE (t : DpsType) (a b : RankingRecord) : Prop :=
  selectField t b ≤ selectField t a

instance (t : DpsType) : DecidableRel (recGE t) := fun a b =>
  inferInstanceAs (Decidable (selectField t b ≤ selectField t a))

instance (t : DpsType) : IsTotal RankingRecord (recGE t) :=
  ⟨fun a b => le_total (selectField t b) (selectField t a)⟩

instance (t : DpsType) : IsTrans RankingRecord (recGE t) :=
  ⟨fun _ _ _ hab hbc => le_trans hbc hab⟩

/-- Embedding of api.py lines 107-119: sort the merged records descending
by the selected field and replace each record by that field value. -/
def sortProject (t : DpsType) (rs : List RankingRecord) : List Int :=
  (rs.insertionSort (recGE t)).map (selectField t)

/-! ## HTTP layer -/

/-- Exceptions that propagate out of the fetch pipeline.  AuthException and
DataException are the module's own exception classes; keyError models a
Python KeyError escaping from a subscript on a parsed payload. -/
inductive PyErr where
  | authException
  | dataException
  | keyError
deriving DecidableEq, Repr

/-- A parsed JSON payload as _get_one_day_ranking consumes it: whether the
whole value is falsy (an empty dict or list), and the two subscripted
fields, none meaning the key is absent so that subscripting raises
KeyError. -/
structure JsonBody where
  falsy : Bool
  hasMorePages : Option Bool
  rankings : Option (List RankingRecord)
deriving DecidableEq, Repr

/-- Outcome of one page request as seen through aiohttp: HTTP 401,
another non-200 status, a transport error (aiohttp.ClientError), a body
that is not valid JSON (json.JSONDecodeError), or a parsed body. -/
inductive HttpOutcome where
  | status401
  | badStatus
  | transportError
  | decodeError
  | ok (body : JsonBody)
deriving DecidableEq, Repr

/-- Embedding of FFLogs._http (api.py lines 36-54): a 401 status raises
AuthException; any other non-200 status, transport failure or JSON decode
failure returns None; otherwise the parsed payload is returned.  (The
except clause at line 52 also lists KeyError, but no subscript occurs
inside _http, so that handler cannot fire.) -/
def httpResp : HttpOutcome → Except PyErr (Option JsonBody)
  | .status401 => .error .authException
  | .badStatus => .ok none
  | .transportError => .ok none
  | .decodeError => .ok none
  | .ok body => .ok (some body)

/-- One iteration of the page loop body (api.py lines 76-85): a None or
falsy result raises DataException; then res subscripted at hasMorePages
and at rankings, in that order, each raising KeyError when absent. -/
def pageStep (o : HttpOutcome) : Except PyErr (Bool × List RankingRecord) :=
  match httpResp o with
  | .error e => .error e
  | .ok none => .error .dataException
  | .ok (some body) =>
    if body.falsy then .error .dataException
    else
      match body.hasMorePages with
      | none => .error .keyError
      | some more =>
        match body.rankings with
        | none => .error .keyError
        | some rs => .ok (more, rs)

/-- Result of a fetch: the accumulated records, a propagating exception,
or fuel exhaustion (a modelling artefact standing for a loop that is still
running). -/
inductive FetchResult where
  | ok (records : List RankingRecord)
  | err (e : PyErr)
  | outOfFuel
deriving DecidableEq, Repr

/-- Embedding of the while-loop of _get_one_day_ranking (api.py lines
66-85): starting from page 1, append each page's rankings and continue
while hasMorePages is true.  service gives the outcome of the request for
each page number; the second component counts page requests issued. -/
def fetchLoop (service : Nat → HttpOutcome) :
    Nat → Nat → List RankingRecord → FetchResult × Nat
  | 0, _, _ => (.outOfFuel, 0)
  | fuel + 1, page, acc =>
    match pageStep (service page) with
    | .error e => (.err e, 1)
    | .ok (more, rs) =>
      if more then
        let rest := fetchLoop service fuel (page + 1) (acc ++ rs)
        (rest.1, rest.2 + 1)
      else (.ok (acc ++ rs), 1)

/-! ## Blob cache and the single-day fetch -/

/-- The pickle blob cache of a PluginData directory: a map from file name
(without the .pkl suffix) to the stored record list.  save_pkl overwrites,
which the prepend-plus-first-match lookup models. -/
abbrev CacheState := List (String × List RankingRecord)

/-- Models PluginData.exists plus load_pkl on the same name. -/
def lookupCache (cache : CacheState) (name : String) :
    Option (List RankingRecord) :=
  List.lookup name cache

/-- Models PluginData.save_pkl: overwrite the named blob. -/
def saveCache (cache : CacheState) (name : String)
    (records : List RankingRecord) : CacheState :=
  (name, records) :: cache

/-- Result of a day-level call together with the cache state after the
call and the number of page requests issued. -/
structure DayOutcome where
  result : FetchResult
  cache : CacheState
  requests : Nat
deriving DecidableEq

/-- Embedding of FFLogs._get_one_day_ranking (api.py lines 56-92) for a
midnight time point date.  If the cache blob exists it is returned with no
request.  Otherwise all pages are fetched; on success the records are
saved only when end_date (= date + one day) is strictly before now. -/
def getOneDayRanking (boss difficulty job : Nat) (date now : Int)
    (service : Nat → HttpOutcome) (fuel : Nat) (cache : CacheState) :
    DayOutcome :=
  let name := cacheNameAt boss difficulty job date
  match lookupCache cache name with
  | some records => ⟨.ok records, cache, 0⟩
  | none =>
    match fetchLoop service fuel 1 [] with
    | (.ok records, n) =>
      if date + secsPerDay < now then
        ⟨.ok records, saveCache cache name records, n⟩
      else ⟨.ok records, cache, n⟩
    | (.err e, n) => ⟨.err e, cache, n⟩
    | (.outOfFuel, n) => ⟨.outOfFuel, cache, n⟩

/-- Embedding of the day loop of _get_whole_ranking (api.py lines 99-104):
walk range days backward from date, concatenating each day's records in
loop order; an exception aborts the loop and propagates.  service is
indexed by day so that each day's page requests can be scripted. -/
def collectDays (boss difficulty job : Nat) (now : Int)
    (service : Int → Nat → HttpOutcome) (fuel : Nat) :
    Nat → Int → CacheState → DayOutcome
  | 0, _, cache => ⟨.ok [], cache, 0⟩
  | n + 1, date, cache =>
    match getOneDayRanking boss difficulty job date now (service date) fuel
      cache with
    | ⟨.ok recs, cache1, r1⟩ =>
      match collectDays boss difficulty job now service fuel n
        (date - secsPerDay) cache1 with
      | ⟨.ok rest, cache2, r2⟩ => ⟨.ok (recs ++ rest), cache2, r1 + r2⟩
      | ⟨.err e, cache2, r2⟩ => ⟨.err e, cache2, r1 + r2⟩
      | ⟨.outOfFuel, cache2, r2⟩ => ⟨.outOfFuel, cache2, r1 + r2⟩
    | ⟨.err e, cache1, r1⟩ => ⟨.err e, cache1, r1⟩
    | ⟨.outOfFuel, cache1, r1⟩ => ⟨.outOfFuel, cache1, r1⟩

/-- Result of the whole-ranking aggregation: the projected metric values,
a propagating exception, or fuel exhaustion. -/
inductive ValuesResult where
  | ok (values : List Int)
  | err (e : PyErr)
  | outOfFuel
deriving DecidableEq, Repr

/-- Aggregation result together with the final cache state and the total
number of page requests issued. -/
structure WholeOutcome where
  result : ValuesResult
  cache : CacheState
  requests : Nat
deriving DecidableEq

/-- Embedding of FFLogs._get_whole_ranking (api.py lines 94-124): truncate
date to midnight, walk range days backward merging records, sort
descending by the selected field and project to that field, and raise
DataException when the projected list is empty. -/
def getWholeRanking (boss difficulty job : Nat) (t : DpsType)
    (date0 now : Int) (service : Int → Nat → HttpOutcome)
    (fuel range : Nat) (cache : CacheState) : WholeOutcome :=
  let date := secsPerDay * Int.fdiv date0 secsPerDay
  match collectDays boss difficulty job now service fuel range date
    cache with
  | ⟨.ok recs, cache1, n⟩ =>
    let values := sortProject t recs
    if values.isEmpty then ⟨.err .dataException, cache1, n⟩
    else ⟨.ok values, cache1, n⟩
  | ⟨.err e, cache1, n⟩ => ⟨.err e, cache1, n⟩
  | ⟨.outOfFuel, cache1, n⟩ => ⟨.outOfFuel, cache1, n⟩

/-! ## Config store (plugin.py, PluginData) -/

/-- A configparser state: sections, each holding option/value pairs.  Both
lookups take the first match, and updates prepend, so the in-memory state
and the synchronously rewritten file agree at every step. -/
abbrev ConfigStore := List (String × List (String × String))

/-- The error raised by configparser.get when the section or the option is
absent (NoSectionError / NoOptionError, caught together at plugin.py line
96); the spec calls this ConfigMissingError. -/
inductive ConfigError where
  | missing
deriving DecidableEq, Repr

/-- Models configparser's default optionxform, which lowercases option
names on both get and set. -/
def optionxform (s : String) : String :=
  String.mk (s.data.map Char.toLower)

/-- Raw lookup of (section, option); the DEFAULT-section fallthrough of
configparser is not exercised by this module and is not modelled. -/
def cfgLookup (cfg : ConfigStore) (sec opt : String) : Option String :=
  (List.lookup sec cfg).bind fun opts =>
    List.lookup (optionxform opt) opts

/-- Embedding of PluginData.config_set (plugin.py lines 107-113): create
the section when absent, set the option, persist. -/
def config_set (cfg : ConfigStore) (sec opt value : String) : ConfigStore :=
  let opts := (List.lookup sec cfg).getD []
  (sec, (optionxform opt, value) :: opts) :: cfg

/-- Embedding of PluginData.config_get (plugin.py lines 89-105).  On a
missing entry the code tests the fallback with Python truthiness (if not
fallback), so an absent fallback and an empty-string fallback both
re-raise; a truthy fallback is stored, persisted and returned.  The
returned store is the (persisted) state after the call. -/
def config_get (cfg : ConfigStore) (sec opt : String)
    (fallback : Option String) : Except ConfigError (String × ConfigStore) :=
  match cfgLookup cfg sec opt with
  | some v => .ok (v, cfg)
  | none =>
    match fallback with
    | none => .error .missing
    | some f =>
      if f = "" then .error .missing
      else .ok (f, config_set cfg sec opt f)

/-- Embedding of the FFLogs.token property getter (api.py lines 25-30):
config_get with no fallback, every exception swallowed into None. -/
def token_get (cfg : ConfigStore) : Option String :=
  match config_get cfg "fflogs" "token" none with
  | .ok (v, _) => some v
  | .error _ => none

/-- Embedding of the window length read at construction (api.py line 23):
int(config_get('fflogs', 'range', '14')), with int() on a digit string
modelled by digitsVal; none if config_get raises. -/
def fflogsRangeValue (cfg : ConfigStore) : Option Nat :=
  match config_get cfg "fflogs" "range" (some "14") with
  | .ok (v, _) => some (digitsVal v.data)
  | .error _ => none

/-! ## Percentile table (FFLogs.dps, api.py lines 167-174)

The index is computed in Python as math.floor(total * 0.01 * (100 - perc))
on IEEE-754 binary64 floats.  Every value arising in that expression is a
dyadic rational, so the computation is modelled exactly: 0.01 becomes the
binary64 nearest to 1/100, and each multiplication is followed by a
round-to-nearest-even to 53 significant bits. -/

/-- Bit length helper with structural fuel (so that the kernel can
evaluate it); bitlenAux f n is the bit length of n whenever n < 2 ^ f. -/
def bitlenAux : Nat → Nat → Nat
  | 0, _ => 0
  | f + 1, n => if n = 0 then 0 else bitlenAux f (n / 2) + 1

/-- Bit length of a natural number below 2 ^ 256 (all numbers in the
percentile computation are far smaller). -/
def bitlen (n : Nat) : Nat := bitlenAux 256 n

/-- Round a / b to the nearest integer, ties to even. -/
def rintNE (a b : Nat) : Nat :=
  let q := a / b
  let r := a % b
  if 2 * r < b then q
  else if b < 2 * r then q + 1
  else if q % 2 = 0 then q else q + 1

/-- A nonnegative dyadic rational num / 2 ^ den2; the exact value of every
float in the percentile-index computation. -/
structure Dyadic where
  num : Nat
  den2 : Nat
deriving DecidableEq, Repr

/-- Exact rational value of a dyadic. -/
def dval (x : Dyadic) : ℚ := (x.num : ℚ) / 2 ^ x.den2

/-- Round a dyadic to 53 significant bits, nearest, ties to even: the
binary64 rounding applied after each float multiplication (the values
involved stay far inside the normal range, so neither subnormals nor
overflow arise). -/
def roundD (x : Dyadic) : Dyadic :=
  let b := bitlen x.num
  if b ≤ 53 then x
  else
    let s := b - 53
    if s ≤ x.den2 then ⟨rintNE x.num (2 ^ s), x.den2 - s⟩
    else ⟨rintNE x.num (2 ^ s) * 2 ^ (s - x.den2), 0⟩

/-- Float multiplication of a dyadic by a small exact integer. -/
def fmul (x : Dyadic) (k : Nat) : Dyadic :=
  roundD ⟨x.num * k, x.den2⟩

/-- math.floor of a nonnegative dyadic. -/
def dfloor (x : Dyadic) : Nat := x.num / 2 ^ x.den2

/-- The numerator of roundD at the original scale: proof-side companion
of roundD (dval (roundD x) = roundNum x.num / 2 ^ x.den2). -/
def roundNum (n : Nat) : Nat :=
  if bitlen n ≤ 53 then n
  else rintNE n (2 ^ (bitlen n - 53)) * 2 ^ (bitlen n - 53)

/-- The binary64 nearest to 0.01 is c01num / 2 ^ 59. -/
def c01num : Nat := 5764607523034235

/-- The exact value of the Python expression
math.floor(total * 0.01 * (100 - perc)) for total < 2 ^ 53:
total converts to float exactly, total * 0.01 rounds once, the product
with the small integer (100 - perc) rounds once more, then floor. -/
def idxF (total perc : Nat) : Nat :=
  dfloor (fmul (roundD ⟨total * c01num, 59⟩) (100 - perc))

/-- The idealized index formula of the documentation,
floor(total * 0.01 * (100 - P)) in exact rational arithmetic. -/
def percIndexExact (total perc : Nat) : Nat :=
  total * (100 - perc) / 100

/-- The fixed descending percentile list of api.py line 170. -/
def percentage_list : List Nat := [100, 99, 95, 75, 50, 25, 10]

/-- Embedding of the rendering loop of FFLogs.dps (api.py lines 170-174):
for each percentile the pair of the percentile and the reported value
rankings[number]; none would mean an IndexError. -/
def percTableF (values : List Int) : List (Nat × Option Int) :=
  percentage_list.map fun perc => (perc, values[idxF values.length perc]?)

/-! ## Lemmas: decimal rendering and cache-key injectivity -/

theorem digitChar_toNat_sub (d : Nat) (h : d < 10) :
    (Nat.digitChar d).toNat - 48 = d := by
  interval_cases d <;> rfl

theorem digitChar_ne_underscore (d : Nat) (h : d < 10) :
    Nat.digitChar d ≠ '_' := by
  interval_cases d <;> decide

theorem natToDigits_ne_underscore (n : Nat) : '_' ∉ natToDigits n := by
  induction n using Nat.strong_induction_on with
  | _ n ih =>
    rw [natToDigits]
    split
    · next h =>
      intro hmem
      rw [List.mem_singleton] at hmem
      exact digitChar_ne_underscore n h hmem.symm
    · next h =>
      intro hmem
      rcases List.mem_append.mp hmem with h1 | h2
      · exact ih (n / 10) (Nat.div_lt_self (by omega) (by norm_num)) h1
      · rw [List.mem_singleton] at h2
        exact digitChar_ne_underscore (n % 10)
          (Nat.mod_lt _ (by norm_num)) h2.symm

theorem digitsVal_cons_zero (xs : List Char) :
    digitsVal ('0' :: xs) = digitsVal xs := by
  show List.foldl _ (0 * 10 + ('0'.toNat - 48)) xs = List.foldl _ 0 xs
  have h : 0 * 10 + ('0'.toNat - 48) = 0 := by decide
  rw [h]

theorem digitsVal_append_digit (ds : List Char) (c : Char) :
    digitsVal (ds ++ [c]) = digitsVal ds * 10 + (c.toNat - 48) := by
  simp [digitsVal, List.foldl_append, List.foldl]

theorem digitsVal_natToDigits : ∀ n : Nat, digitsVal (natToDigits n) = n := by
  intro n
  induction n using Nat.strong_induction_on with
  | _ n ih =>
    rw [natToDigits]
    split
    · next h =>
      show digitsVal ([] ++ [Nat.digitChar n]) = n
      rw [digitsVal_append_digit]
      show digitsVal [] * 10 + _ = n
      rw [digitChar_toNat_sub n h]
      simp [digitsVal]
    · next h =>
      rw [digitsVal_append_digit,
        ih (n / 10) (Nat.div_lt_self (by omega) (by norm_num)),
        digitChar_toNat_sub (n % 10) (Nat.mod_lt _ (by norm_num))]
      omega

theorem natToDigits_injective {m n : Nat}
    (h : natToDigits m = natToDigits n) : m = n := by
  have := congrArg digitsVal h
  rwa [digitsVal_natToDigits, digitsVal_natToDigits] at this

theorem digitsVal_replicate_zero (k : Nat) (ds : List Char) :
    digitsVal (List.replicate k '0' ++ ds) = digitsVal ds := by
  induction k with
  | zero => simp
  | succ k ih =>
    rw [List.replicate_succ, List.cons_append, digitsVal_cons_zero, ih]

theorem digitsVal_padNum (w n : Nat) : digitsVal (padNum w n) = n := by
  rw [padNum, digitsVal_replicate_zero, digitsVal_natToDigits]

theorem padNum_injective {w a b : Nat} (h : padNum w a = padNum w b) :
    a = b := by
  have := congrArg digitsVal h
  rwa [digitsVal_padNum, digitsVal_padNum] at this

theorem padNum_ne_underscore (w n : Nat) : '_' ∉ padNum w n := by
  rw [padNum]
  intro hmem
  rcases List.mem_append.mp hmem with h1 | h2
  · exact absurd (List.eq_of_mem_replicate h1) (by decide)
  · exact natToDigits_ne_underscore n h2

theorem natToDigits_length_le :
    ∀ w n : Nat, 0 < w → n < 10 ^ w → (natToDigits n).length ≤ w := by
  intro w
  induction w with
  | zero => omega
  | succ w ih =>
    intro n _ hn
    rw [natToDigits]
    split
    · next h => simp
    · next h =>
      rw [List.length_append]
      have hw : 0 < w := by
        by_contra hc
        have : w = 0 := by omega
        subst this
        simp [pow_succ] at hn
        omega
      have hdiv : n / 10 < 10 ^ w := by
        rw [Nat.div_lt_iff_lt_mul (by norm_num)]
        calc n < 10 ^ (w + 1) := hn
        _ = 10 ^ w * 10 := by ring
      have := ih (n / 10) hw hdiv
      simp only [List.length_singleton]
      omega

theorem padNum_length {w n : Nat} (h0 : 0 < w) (h : n < 10 ^ w) :
    (padNum w n).length = w := by
  rw [padNum, List.length_append, List.length_replicate]
  have := natToDigits_length_le w n h0 h
  omega

theorem underscore_split :
    ∀ a₁ b₁ a₂ b₂ : List Char, '_' ∉ a₁ → '_' ∉ a₂ →
    a₁ ++ '_' :: b₁ = a₂ ++ '_' :: b₂ → a₁ = a₂ ∧ b₁ = b₂ := by
  intro a₁
  induction a₁ with
  | nil =>
    intro b₁ a₂ b₂ _ h2 heq
    cases a₂ with
    | nil => simpa using heq
    | cons c t =>
      rw [List.nil_append, List.cons_append, List.cons.injEq] at heq
      exact absurd (List.mem_cons_self c t) (heq.1 ▸ h2)
  | cons c t ih =>
    intro b₁ a₂ b₂ h1 h2 heq
    cases a₂ with
    | nil =>
      rw [List.nil_append, List.cons_append, List.cons.injEq] at heq
      exact absurd (List.mem_cons_self c t) (heq.1.symm ▸ h1)
    | cons c' t' =>
      rw [List.cons_append, List.cons_append, List.cons.injEq] at heq
      obtain ⟨hc, hrest⟩ := heq
      have ht := ih b₁ t' b₂ (fun hm => h1 (List.mem_cons_of_mem c hm))
        (fun hm => h2 (List.mem_cons_of_mem c' hm)) hrest
      exact ⟨by rw [hc, ht.1], ht.2⟩

theorem ymdChars_injective {t₁ t₂ : DateYMD}
    (h₁ : ValidDate t₁) (h₂ : ValidDate t₂)
    (h : ymdChars t₁ = ymdChars t₂) : t₁ = t₂ := by
  obtain ⟨hy₁, hm₁, hd₁⟩ := h₁
  obtain ⟨hy₂, hm₂, hd₂⟩ := h₂
  rw [ymdChars, ymdChars] at h
  have e4 : (10 : Nat) ^ 4 = 10000 := by norm_num
  have e2 : (10 : Nat) ^ 2 = 100 := by norm_num
  have hdlen : (padNum 2 t₁.day).length = (padNum 2 t₂.day).length := by
    rw [padNum_length (by norm_num) (e2 ▸ hd₁),
      padNum_length (by norm_num) (e2 ▸ hd₂)]
  obtain ⟨hym, hd⟩ := List.append_inj' h hdlen
  have hylen : (padNum 4 t₁.year).length = (padNum 4 t₂.year).length := by
    rw [padNum_length (by norm_num) (e4 ▸ hy₁),
      padNum_length (by norm_num) (e4 ▸ hy₂)]
  obtain ⟨hy, hm⟩ := List.append_inj hym hylen
  obtain ⟨y₁, m₁, d₁⟩ := t₁
  obtain ⟨y₂, m₂, d₂⟩ := t₂
  simp only [DateYMD.mk.injEq]
  exact ⟨padNum_injective hy, padNum_injective hm, padNum_injective hd⟩

/-- C8: the cache key built from (boss identifier, difficulty, job
identifier, day formatted as YYYYMMDD) is injective on valid dates:
distinct tuples produce distinct key strings. -/
theorem C8_cache_key_injective
    (b₁ d₁ j₁ b₂ d₂ j₂ : Nat) (t₁ t₂ : DateYMD)
    (hv₁ : ValidDate t₁) (hv₂ : ValidDate t₂)
    (heq : cache_name b₁ d₁ j₁ t₁ = cache_name b₂ d₂ j₂ t₂) :
    b₁ = b₂ ∧ d₁ = d₂ ∧ j₁ = j₂ ∧ t₁ = t₂ := by
  have hl : natToDigits b₁ ++ '_' :: (natToDigits d₁ ++
      '_' :: (natToDigits j₁ ++ '_' :: ymdChars t₁)) =
      natToDigits b₂ ++ '_' :: (natToDigits d₂ ++
      '_' :: (natToDigits j₂ ++ '_' :: ymdChars t₂)) := by
    have := String.ext_iff.mp heq
    simpa [cache_name] using this
  obtain ⟨hb, hl₁⟩ := underscore_split _ _ _ _
    (natToDigits_ne_underscore b₁) (natToDigits_ne_underscore b₂) hl
  obtain ⟨hd, hl₂⟩ := underscore_split _ _ _ _
    (natToDigits_ne_underscore d₁) (natToDigits_ne_underscore d₂) hl₁
  obtain ⟨hj, hl₃⟩ := underscore_split _ _ _ _
    (natToDigits_ne_underscore j₁) (natToDigits_ne_underscore j₂) hl₂
  exact ⟨natToDigits_injective hb, natToDigits_injective hd,
    natToDigits_injective hj, ymdChars_injective hv₁ hv₂ hl₃⟩

/-- Witness for C8 at concrete tuples that differ in their day. -/
theorem C8_witness :
    ValidDate ⟨2024, 3, 5⟩ ∧ ValidDate ⟨2024, 3, 6⟩ ∧
    (cache_name 1 100 17 ⟨2024, 3, 5⟩ = cache_name 2 100 17 ⟨2024, 3, 6⟩ →
      (1 : Nat) = 2 ∧ (100 : Nat) = 100 ∧ (17 : Nat) = 17 ∧
      (⟨2024, 3, 5⟩ : DateYMD) = ⟨2024, 3, 6⟩) :=
  ⟨⟨by norm_num, by norm_num, by norm_num⟩,
   ⟨by norm_num, by norm_num, by norm_num⟩,
   fun h => C8_cache_key_injective 1 100 17 2 100 17 ⟨2024, 3, 5⟩
     ⟨2024, 3, 6⟩ ⟨by norm_num, by norm_num, by norm_num⟩
     ⟨by norm_num, by norm_num, by norm_num⟩ h⟩

/-! ## Config store: fallback semantics and the token accessor -/

theorem cfgLookup_config_set (cfg : ConfigStore) (s o F : String) :
    cfgLookup (config_set cfg s o F) s o = some F := by
  simp [cfgLookup, config_set, List.lookup]

/-- C6 counterexample: on a missing entry, a supplied empty-string
fallback is treated like no fallback at all (Python truthiness of the
fallback), so the call raises instead of returning and persisting the
fallback value. -/
theorem C6_counterexample :
    config_get [] "a" "b" (some "") = .error .missing := by rfl

/-- C6 (amended): for a missing (section, option) and a supplied
NON-EMPTY fallback F, config_get returns F and persists it, a subsequent
call without a fallback returns the stored F, and a missing entry with no
fallback raises. -/
theorem C6_fallback_persistence (cfg : ConfigStore) (s o F : String)
    (habs : cfgLookup cfg s o = none) (hF : F ≠ "") :
    config_get cfg s o (some F) = .ok (F, config_set cfg s o F) ∧
    cfgLookup (config_set cfg s o F) s o = some F ∧
    config_get (config_set cfg s o F) s o none =
      .ok (F, config_set cfg s o F) ∧
    config_get cfg s o none = .error .missing := by
  refine ⟨?_, cfgLookup_config_set cfg s o F, ?_, ?_⟩
  · rw [config_get, habs]
    simp [hF]
  · rw [config_get, cfgLookup_config_set]
  · rw [config_get, habs]

/-- Witness for C6 on an empty store with fallback value x. -/
theorem C6_witness :
    cfgLookup [] "a" "b" = none ∧ ("x" : String) ≠ "" ∧
    config_get [] "a" "b" (some "x") = .ok ("x", config_set [] "a" "b" "x") ∧
    config_get (config_set [] "a" "b" "x") "a" "b" none =
      .ok ("x", config_set [] "a" "b" "x") :=
  ⟨rfl, by decide,
   (C6_fallback_persistence [] "a" "b" "x" rfl (by decide)).1,
   (C6_fallback_persistence [] "a" "b" "x" rfl (by decide)).2.2.1⟩

/-- C9: the token accessor is total.  For every config store it returns
exactly the stored entry as an Option: the stored token when present,
and the unset marker none when absent; no error can escape. -/
theorem C9_token_never_fails (cfg : ConfigStore) :
    token_get cfg = cfgLookup cfg "fflogs" "token" := by
  rw [token_get, config_get]
  cases h : cfgLookup cfg "fflogs" "token" <;> simp

/-! ## Single-day fetch: freshness, failure atomicity, pagination -/

theorem lookupCache_saveCache (cache : CacheState) (name : String)
    (records : List RankingRecord) :
    lookupCache (saveCache cache name records) name = some records := by
  simp [lookupCache, saveCache, List.lookup]

/-- C3 (code path check): failure taxonomy of a page request.  HTTP 401
raises AuthException; any other non-success status, a transport failure,
or a body that is not valid JSON (or parses to a falsy value) raises
DataException; but a parsed, truthy payload that lacks the expected keys
raises a bare KeyError, which nothing converts to DataException.  The
last conjunct evaluates the single-day fetch at such a service: the whole
call aborts with the KeyError, returning none of the page records and
writing nothing to the cache. -/
theorem C3_keyError_escapes :
    pageStep .status401 = .error .authException ∧
    pageStep .badStatus = .error .dataException ∧
    pageStep .transportError = .error .dataException ∧
    pageStep .decodeError = .error .dataException ∧
    pageStep (.ok ⟨true, none, none⟩) = .error .dataException ∧
    pageStep (.ok ⟨false, none, none⟩) = .error .keyError ∧
    getOneDayRanking 1 100 17 0 0 (fun _ => .ok ⟨false, none, none⟩) 1 [] =
      ⟨.err .keyError, [], 1⟩ :=
  ⟨rfl, rfl, rfl, rfl, rfl, rfl, rfl⟩

/-- C10: cache-write atomicity.  When the cache misses and the page loop
fails with any exception, the call propagates that exception and the
cache state is exactly what it was before the call. -/
theorem C10_no_cache_write_on_failure (boss difficulty job : Nat)
    (date now : Int) (service : Nat → HttpOutcome) (fuel : Nat)
    (cache : CacheState) (e : PyErr) (n : Nat)
    (hmiss : lookupCache cache (cacheNameAt boss difficulty job date) = none)
    (hfail : fetchLoop service fuel 1 [] = (.err e, n)) :
    getOneDayRanking boss difficulty job date now service fuel cache =
      ⟨.err e, cache, n⟩ := by
  rw [getOneDayRanking]
  rw [hmiss, hfail]

/-- Witness for C10: a 401 on page 1 leaves the empty cache empty. -/
theorem C10_witness :
    lookupCache [] (cacheNameAt 1 100 17 0) = none ∧
    fetchLoop (fun _ => .status401) 1 1 [] = (.err .authException, 1) ∧
    getOneDayRanking 1 100 17 0 100000 (fun _ => .status401) 1 [] =
      ⟨.err .authException, [], 1⟩ :=
  ⟨rfl, rfl,
   C10_no_cache_write_on_failure 1 100 17 0 100000 (fun _ => .status401)
     1 [] .authException 1 rfl rfl⟩

/-- C2: cache freshness.  On a miss with a successful fetch of a fully
elapsed day (end of day strictly before now), the records are persisted
under the day's key; a subsequent call for that key (any service, fuel or
clock) returns the stored records with zero page requests and no state
change; and for a day that has not fully elapsed, the cache is never
modified. -/
theorem C2_cache_freshness (boss difficulty job : Nat)
    (date now now2 : Int) (service service2 : Nat → HttpOutcome)
    (fuel fuel2 : Nat) (cache : CacheState)
    (records : List RankingRecord) (n : Nat)
    (hmiss : lookupCache cache (cacheNameAt boss difficulty job date) = none)
    (hok : fetchLoop service fuel 1 [] = (.ok records, n))
    (helapsed : date + secsPerDay < now) :
    getOneDayRanking boss difficulty job date now service fuel cache =
      ⟨.ok records,
        saveCache cache (cacheNameAt boss difficulty job date) records, n⟩ ∧
    getOneDayRanking boss difficulty job date now2 service2 fuel2
      (saveCache cache (cacheNameAt boss difficulty job date) records) =
      ⟨.ok records,
        saveCache cache (cacheNameAt boss difficulty job date) records, 0⟩ ∧
    (∀ now3, ¬ date + secsPerDay < now3 →
      (getOneDayRanking boss difficulty job date now3 service fuel
        cache).cache = cache) := by
  refine ⟨?_, ?_, ?_⟩
  · rw [getOneDayRanking, hmiss, hok]
    simp only [if_pos helapsed]
  · rw [getOneDayRanking, lookupCache_saveCache]
  · intro now3 h3
    rw [getOneDayRanking, hmiss, hok]
    simp only [if_neg h3]

/-- Witness for C2: one elapsed day fetched in one page, then a second
call with a dead service, zero fuel and an earlier clock still returns
the stored records with zero requests. -/
theorem C2_witness :
    lookupCache [] (cacheNameAt 1 100 17 0) = none ∧
    fetchLoop (fun _ => .ok ⟨false, some false, some [⟨100, 2, 3⟩]⟩) 1 1 []
      = (.ok [⟨100, 2, 3⟩], 1) ∧
    ((0 : Int) + secsPerDay < 100000) ∧
    getOneDayRanking 1 100 17 0 100000
      (fun _ => .ok ⟨false, some false, some [⟨100, 2, 3⟩]⟩) 1 [] =
      ⟨.ok [⟨100, 2, 3⟩],
        saveCache [] (cacheNameAt 1 100 17 0) [⟨100, 2, 3⟩], 1⟩ ∧
    getOneDayRanking 1 100 17 0 50 (fun _ => .badStatus) 0
      (saveCache [] (cacheNameAt 1 100 17 0) [⟨100, 2, 3⟩]) =
      ⟨.ok [⟨100, 2, 3⟩],
        saveCache [] (cacheNameAt 1 100 17 0) [⟨100, 2, 3⟩], 0⟩ :=
  ⟨rfl, rfl, by decide,
   (C2_cache_freshness 1 100 17 0 100000 50
     (fun _ => .ok ⟨false, some false, some [⟨100, 2, 3⟩]⟩)
     (fun _ => .badStatus) 1 0 [] [⟨100, 2, 3⟩] 1 rfl rfl (by decide)).1,
   (C2_cache_freshness 1 100 17 0 100000 50
     (fun _ => .ok ⟨false, some false, some [⟨100, 2, 3⟩]⟩)
     (fun _ => .badStatus) 1 0 [] [⟨100, 2, 3⟩] 1 rfl rfl (by decide)).2.1⟩

theorem fetchLoop_pages (service : Nat → HttpOutcome)
    (pages : Nat → List RankingRecord) (k : Nat) :
    ∀ fuel p acc, 1 ≤ p → p ≤ k → k - p < fuel →
    (∀ i, p ≤ i → i < k → pageStep (service i) = .ok (true, pages i)) →
    pageStep (service k) = .ok (false, pages k) →
    fetchLoop service fuel p acc =
      (.ok (acc ++ ((List.range' p (k - p + 1)).map pages).flatten),
        k - p + 1) := by
  intro fuel
  induction fuel with
  | zero => intro p acc _ _ h _ _; omega
  | succ fuel ih =>
    intro p acc hp1 hpk hfuel hmid hlast
    by_cases hpe : p = k
    · subst hpe
      simp only [fetchLoop, hlast]
      simp [Nat.sub_self, List.range'_one]
    · have hmidp := hmid p le_rfl (by omega)
      simp only [fetchLoop, hmidp]
      rw [ih (p + 1) (acc ++ pages p) (by omega) (by omega) (by omega)
        (fun i h1 h2 => hmid i (by omega) h2) hlast]
      have e1 : k - (p + 1) + 1 = k - p := by omega
      rw [e1, List.range'_succ]
      simp [List.append_assoc]

/-- C4: pagination completeness.  When pages 1..k-1 of the service answer
with records and hasMorePages true and page k answers with records and
hasMorePages false, the loop starting at page 1 issues exactly k requests
and returns the concatenation of the pages' records in page-arrival
order. -/
theorem C4_pagination (service : Nat → HttpOutcome)
    (pages : Nat → List RankingRecord) (k fuel : Nat)
    (hk : 1 ≤ k) (hfuel : k ≤ fuel)
    (hmid : ∀ i, 1 ≤ i → i < k → pageStep (service i) = .ok (true, pages i))
    (hlast : pageStep (service k) = .ok (false, pages k)) :
    fetchLoop service fuel 1 [] =
      (.ok (((List.range' 1 k).map pages).flatten), k) := by
  have h := fetchLoop_pages service pages k fuel 1 [] le_rfl hk
    (by omega) hmid hlast
  have e : k - 1 + 1 = k := by omega
  rw [e] at h
  simpa using h

/-- Witness for C4: three pages of ten records each, then no more pages,
yield exactly thirty records in page-arrival order. -/
theorem C4_witness :
    fetchLoop
      (fun p => if p < 3
        then .ok ⟨false, some true,
          some ((List.range 10).map fun j =>
            ⟨(10 * p + j : Int), 0, 0⟩)⟩
        else .ok ⟨false, some false,
          some ((List.range 10).map fun j =>
            ⟨(10 * p + j : Int), 0, 0⟩)⟩)
      3 1 [] =
      (.ok (((List.range' 1 3).map fun p => (List.range 10).map fun j =>
        (⟨(10 * p + j : Int), 0, 0⟩ : RankingRecord)).flatten), 3) ∧
    (((List.range' 1 3).map fun p => (List.range 10).map fun j =>
      (⟨(10 * p + j : Int), 0, 0⟩ : RankingRecord)).flatten).length = 30 := by
  constructor
  · exact C4_pagination
      (fun p => if p < 3
        then .ok ⟨false, some true,
          some ((List.range 10).map fun j =>
            ⟨(10 * p + j : Int), 0, 0⟩)⟩
        else .ok ⟨false, some false,
          some ((List.range 10).map fun j =>
            ⟨(10 * p + j : Int), 0, 0⟩)⟩)
      (fun p => (List.range 10).map fun j =>
        (⟨(10 * p + j : Int), 0, 0⟩ : RankingRecord))
      3 3 (by norm_num) le_rfl
      (by intro i h1 h2; interval_cases i <;> rfl) (by rfl)
  · rfl

/-! ## Aggregation over the day window -/

theorem collectDays_all_cached (boss difficulty job : Nat) (now : Int)
    (service : Int → Nat → HttpOutcome) (fuel : Nat) :
    ∀ (range : Nat) (date : Int) (cache : CacheState)
      (recs : Nat → List RankingRecord),
    (∀ i : Nat, i < range →
      lookupCache cache (cacheNameAt boss difficulty job
        (date - secsPerDay * (i : Int))) = some (recs i)) →
    collectDays boss difficulty job now service fuel range date cache =
      ⟨.ok (((List.range range).map recs).flatten), cache, 0⟩ := by
  intro range
  induction range with
  | zero => intro date cache recs _; rfl
  | succ range ih =>
    intro date cache recs hc
    have h0 := hc 0 (by omega)
    simp only [Nat.cast_zero, mul_zero, sub_zero] at h0
    have hshift : ∀ i : Nat, i < range →
        lookupCache cache (cacheNameAt boss difficulty job
          (date - secsPerDay - secsPerDay * (i : Int))) =
        some (recs (i + 1)) := by
      intro i hi
      have e : date - secsPerDay - secsPerDay * (i : Int) =
          date - secsPerDay * ((i + 1 : Nat) : Int) := by
        push_cast
        ring
      rw [e]
      exact hc (i + 1) (by omega)
    have hone : getOneDayRanking boss difficulty job date now (service date)
        fuel cache = ⟨.ok (recs 0), cache, 0⟩ := by
      rw [getOneDayRanking, h0]
    rw [collectDays]
    simp only [hone]
    simp only [ih (date - secsPerDay) cache (fun i => recs (i + 1)) hshift]
    rw [List.range_succ_eq_map]
    simp [List.map_map, Function.comp_def]

/-- C5: the aggregation walks exactly range days backward from the
anchor, in order anchor, anchor-1, ..., merging each day's records into
one sequence; the output is the merged sequence sorted descending by the
selected field and projected to that field's value (witnessed here by the
permutation and sortedness facts); and when every day of the window is a
cache hit, the cache is unchanged and zero page requests are issued.  The
last conjunct records the config-driven default window length: on a fresh
store, int(config_get('fflogs', 'range', '14')) is 14. -/
theorem C5_aggregation (boss difficulty job : Nat) (t : DpsType)
    (k now : Int) (service : Int → Nat → HttpOutcome) (fuel range : Nat)
    (cache : CacheState) (recs : Nat → List RankingRecord)
    (hcached : ∀ i : Nat, i < range →
      lookupCache cache (cacheNameAt boss difficulty job
        (secsPerDay * k - secsPerDay * (i : Int))) = some (recs i))
    (hne : ((List.range range).map recs).flatten ≠ []) :
    getWholeRanking boss difficulty job t (secsPerDay * k) now service fuel
        range cache =
      ⟨.ok (sortProject t (((List.range range).map recs).flatten)),
        cache, 0⟩ ∧
    (sortProject t (((List.range range).map recs).flatten)).Perm
      ((((List.range range).map recs).flatten).map (selectField t)) ∧
    (sortProject t (((List.range range).map recs).flatten)).Sorted
      (· ≥ ·) ∧
    fflogsRangeValue [] = some 14 := by
  have htrunc : Int.fdiv (secsPerDay * k) secsPerDay = k :=
    Int.mul_fdiv_cancel_left k (by norm_num [secsPerDay])
  refine ⟨?_, ?_, ?_, rfl⟩
  · rw [getWholeRanking]
    rw [htrunc]
    rw [collectDays_all_cached boss difficulty job now service fuel range
      (secsPerDay * k) cache recs hcached]
    have hnonempty :
        (sortProject t (((List.range range).map recs).flatten)).isEmpty
          = false := by
      rw [List.isEmpty_eq_false]
      intro hmapnil
      apply hne
      rw [sortProject] at hmapnil
      rw [List.map_eq_nil_iff] at hmapnil
      have hperm2 := List.perm_insertionSort (recGE t)
        (((List.range range).map recs).flatten)
      rw [hmapnil] at hperm2
      exact (List.Perm.nil_eq hperm2).symm
    simp only [hnonempty, Bool.false_eq_true, if_false]
  · exact List.Perm.map (selectField t)
      (List.perm_insertionSort (recGE t) _)
  · exact List.Pairwise.map (selectField t) (fun a b h => h)
      (List.sorted_insertionSort (recGE t) _)

/-- Witness for C5: a single-day window served entirely from cache. -/
theorem C5_witness :
    ((List.range 1).map
      (fun _ => [(⟨100, 0, 0⟩ : RankingRecord), ⟨80, 0, 0⟩])).flatten ≠ [] ∧
    getWholeRanking 1 100 17 .rdps (secsPerDay * 19000) 0
      (fun _ _ => .badStatus) 1 1
      (saveCache [] (cacheNameAt 1 100 17 (secsPerDay * 19000))
        [⟨100, 0, 0⟩, ⟨80, 0, 0⟩]) =
      ⟨.ok (sortProject .rdps (((List.range 1).map
          (fun _ => [(⟨100, 0, 0⟩ : RankingRecord), ⟨80, 0, 0⟩])).flatten)),
        saveCache [] (cacheNameAt 1 100 17 (secsPerDay * 19000))
          [⟨100, 0, 0⟩, ⟨80, 0, 0⟩], 0⟩ := by
  constructor
  · simp
  · exact (C5_aggregation 1 100 17 .rdps 19000 0 (fun _ _ => .badStatus)
      1 1 _ (fun _ => [⟨100, 0, 0⟩, ⟨80, 0, 0⟩])
      (by intro i hi
          interval_cases i
          simp only [Nat.cast_zero, mul_zero, sub_zero]
          exact lookupCache_saveCache [] _ _)
      (by simp)).1

theorem collectDays_all_empty (boss difficulty job : Nat) (now : Int)
    (service : Int → Nat → HttpOutcome) (fuel : Nat) (hfuel : 1 ≤ fuel) :
    ∀ (range : Nat) (date : Int) (cache : CacheState),
    (∀ i : Nat, i < range →
      lookupCache cache (cacheNameAt boss difficulty job
        (date - secsPerDay * (i : Int))) = none) →
    (∀ i : Nat, i < range →
      service (date - secsPerDay * (i : Int)) 1 =
        .ok ⟨false, some false, some []⟩) →
    (∀ i : Nat, i < range →
      ¬ (date - secsPerDay * (i : Int) + secsPerDay < now)) →
    collectDays boss difficulty job now service fuel range date cache =
      ⟨.ok [], cache, range⟩ := by
  intro range
  induction range with
  | zero => intro date cache _ _ _; rfl
  | succ range ih =>
    intro date cache hmiss hserv hnow
    have h0 := hmiss 0 (by omega)
    have s0 := hserv 0 (by omega)
    have n0 := hnow 0 (by omega)
    simp only [Nat.cast_zero, mul_zero, sub_zero] at h0 s0 n0
    obtain ⟨f, rfl⟩ : ∃ f, fuel = f + 1 := ⟨fuel - 1, by omega⟩
    have hone : getOneDayRanking boss difficulty job date now (service date)
        (f + 1) cache = ⟨.ok [], cache, 1⟩ := by
      rw [getOneDayRanking, h0]
      have hloop : fetchLoop (service date) (f + 1) 1 [] = (.ok [], 1) := by
        rw [fetchLoop, s0]
        rfl
      rw [hloop]
      simp only [if_neg n0]
    have hshift : ∀ g : (Int → Prop), (∀ i : Nat, i < range + 1 → g
        (date - secsPerDay * (i : Int))) → ∀ i : Nat, i < range → g
        (date - secsPerDay - secsPerDay * (i : Int)) := by
      intro g hg i hi
      have e : date - secsPerDay - secsPerDay * (i : Int) =
          date - secsPerDay * ((i + 1 : Nat) : Int) := by
        push_cast
        ring
      rw [e]
      exact hg (i + 1) (by omega)
    rw [collectDays]
    simp only [hone]
    simp only [ih (date - secsPerDay) cache
      (hshift (fun d => lookupCache cache
        (cacheNameAt boss difficulty job d) = none) hmiss)
      (hshift (fun d => service d 1 = .ok ⟨false, some false, some []⟩)
        hserv)
      (hshift (fun d => ¬ (d + secsPerDay < now)) hnow)]
    simp [Nat.add_comm]

/-- C7: when every day of the window yields zero records (the cache
misses everywhere and the service answers each day with a single page of
no rankings), the aggregation raises DataException, and it does so only
after the full window was processed: all range day fetches were issued
(one page request per day), none before the failure was raised. -/
theorem C7_empty_window (boss difficulty job : Nat) (t : DpsType)
    (k now : Int) (service : Int → Nat → HttpOutcome) (fuel range : Nat)
    (cache : CacheState) (hfuel : 1 ≤ fuel)
    (hmiss : ∀ i : Nat, i < range →
      lookupCache cache (cacheNameAt boss difficulty job
        (secsPerDay * k - secsPerDay * (i : Int))) = none)
    (hserv : ∀ i : Nat, i < range →
      service (secsPerDay * k - secsPerDay * (i : Int)) 1 =
        .ok ⟨false, some false, some []⟩)
    (hnow : ∀ i : Nat, i < range →
      ¬ (secsPerDay * k - secsPerDay * (i : Int) + secsPerDay < now)) :
    getWholeRanking boss difficulty job t (secsPerDay * k) now service fuel
      range cache = ⟨.err .dataException, cache, range⟩ := by
  have htrunc : Int.fdiv (secsPerDay * k) secsPerDay = k :=
    Int.mul_fdiv_cancel_left k (by norm_num [secsPerDay])
  rw [getWholeRanking]
  rw [htrunc]
  simp only [collectDays_all_empty boss difficulty job now service fuel
    hfuel range (secsPerDay * k) cache hmiss hserv hnow]
  rfl

/-- Witness for C7: a two-day window over an empty cache with an
empty-page service and a clock at the epoch raises DataException after
two page requests. -/
theorem C7_witness :
    getWholeRanking 1 100 17 .rdps (secsPerDay * 19000) 0
      (fun _ _ => .ok ⟨false, some false, some []⟩) 1 2 [] =
      ⟨.err .dataException, [], 2⟩ :=
  C7_empty_window 1 100 17 .rdps 19000 0
    (fun _ _ => .ok ⟨false, some false, some []⟩) 1 2 [] le_rfl
    (fun _ _ => rfl) (fun _ _ => rfl)
    (by intro i hi
        simp only [secsPerDay]
        omega)

/-! ## Percentile index: properties of the binary64 rounding model -/

theorem bitlenAux_zero (f : Nat) : bitlenAux f 0 = 0 := by
  cases f <;> rfl

theorem bitlenAux_spec :
    ∀ f n : Nat, 0 < n → n < 2 ^ f →
    2 ^ (bitlenAux f n - 1) ≤ n ∧ n < 2 ^ bitlenAux f n := by
  intro f
  induction f with
  | zero =>
    intro n h1 h2
    simp at h2
    omega
  | succ f ih =>
    intro n h1 h2
    rw [bitlenAux]
    simp only [if_neg (by omega : ¬ n = 0)]
    by_cases hh : n / 2 = 0
    · have hn1 : n = 1 := by omega
      subst hn1
      rw [hh, bitlenAux_zero]
      norm_num
    · have hdiv : n / 2 < 2 ^ f := by
        rw [Nat.div_lt_iff_lt_mul (by norm_num)]
        calc n < 2 ^ (f + 1) := h2
        _ = 2 ^ f * 2 := by ring
      obtain ⟨hlo, hhi⟩ := ih (n / 2) (by omega) hdiv
      set b := bitlenAux f (n / 2) with hb
      have hb1 : 1 ≤ b := by
        by_contra hc
        have : b = 0 := by omega
        rw [this] at hhi
        omega
      have hpow : 2 ^ b = 2 * 2 ^ (b - 1) := by
        calc 2 ^ b = 2 ^ (b - 1 + 1) := by rw [Nat.sub_add_cancel hb1]
        _ = 2 * 2 ^ (b - 1) := by ring
      have h2b : 2 ^ (b + 1) = 2 * 2 ^ b := by rw [pow_succ]; ring
      constructor
      · simp only [Nat.add_sub_cancel]
        omega
      · omega

theorem bitlen_spec (n : Nat) (h1 : 0 < n) (h2 : n < 2 ^ 256) :
    2 ^ (bitlen n - 1) ≤ n ∧ n < 2 ^ bitlen n :=
  bitlenAux_spec 256 n h1 h2

theorem bitlen_zero : bitlen 0 = 0 := bitlenAux_zero 256

theorem rintNE_cases (a b : Nat) :
    (rintNE a b = a / b ∧ 2 * (a % b) ≤ b) ∨
    (rintNE a b = a / b + 1 ∧ b ≤ 2 * (a % b)) := by
  simp only [rintNE]
  split_ifs with hc1 hc2 hc3
  · exact Or.inl ⟨rfl, by omega⟩
  · exact Or.inr ⟨rfl, by omega⟩
  · exact Or.inl ⟨rfl, by omega⟩
  · exact Or.inr ⟨rfl, by omega⟩

theorem rintNE_le (a b : Nat) (hb : 0 < b) :
    2 * rintNE a b * b ≤ 2 * a + b := by
  have h1 := Nat.div_add_mod a b
  have h2 : a % b < b := Nat.mod_lt _ hb
  rcases rintNE_cases a b with ⟨hc, hr⟩ | ⟨hc, hr⟩ <;> rw [hc]
  · have e : 2 * (a / b) * b = 2 * (b * (a / b)) := by ring
    rw [e]
    generalize hX : b * (a / b) = X at h1 ⊢
    generalize hR : a % b = R at h1 h2 ⊢
    omega
  · have e : 2 * (a / b + 1) * b = 2 * (b * (a / b)) + 2 * b := by ring
    rw [e]
    generalize hX : b * (a / b) = X at h1 ⊢
    generalize hR : a % b = R at h1 h2 hr ⊢
    omega

theorem rintNE_lower (a b : Nat) : a / b ≤ rintNE a b := by
  rcases rintNE_cases a b with ⟨hc, _⟩ | ⟨hc, _⟩ <;> omega

theorem rintNE_upper (a b : Nat) : rintNE a b ≤ a / b + 1 := by
  rcases rintNE_cases a b with ⟨hc, _⟩ | ⟨hc, _⟩ <;> omega

theorem rintNE_mono {a₁ a₂ : Nat} (b : Nat) (hb : 0 < b) (h : a₁ ≤ a₂) :
    rintNE a₁ b ≤ rintNE a₂ b := by
  have h1 := Nat.div_add_mod a₁ b
  have h2 := Nat.div_add_mod a₂ b
  have hm1 : a₁ % b < b := Nat.mod_lt _ hb
  have hm2 : a₂ % b < b := Nat.mod_lt _ hb
  have hq : a₁ / b ≤ a₂ / b := Nat.div_le_div_right h
  rcases Nat.lt_or_ge (a₁ / b) (a₂ / b) with hlt | hge
  · have u := rintNE_upper a₁ b
    have l := rintNE_lower a₂ b
    omega
  · have heq : a₁ / b = a₂ / b := by omega
    have hreq : a₁ % b ≤ a₂ % b := by
      rw [heq] at h1
      generalize hX : b * (a₂ / b) = X at h1 h2
      omega
    rcases rintNE_cases a₁ b with ⟨hc1, hr1⟩ | ⟨hc1, hr1⟩ <;>
      rcases rintNE_cases a₂ b with ⟨hc2, hr2⟩ | ⟨hc2, hr2⟩
    · omega
    · omega
    · have hre : a₁ % b = a₂ % b := by omega
      have hae : a₁ = a₂ := by
        rw [heq] at h1
        rw [hre] at h1
        generalize hX : b * (a₂ / b) = X at h1 h2
        omega
      rw [hae] at hc1
      omega
    · omega

theorem dval_roundD (x : Dyadic) :
    dval (roundD x) = (roundNum x.num : ℚ) / 2 ^ x.den2 := by
  simp only [roundD, roundNum]
  split_ifs with h1 h2
  · rfl
  · show (rintNE x.num (2 ^ (bitlen x.num - 53)) : ℚ) /
      2 ^ (x.den2 - (bitlen x.num - 53)) = _
    push_cast
    rw [div_eq_div_iff (by positivity) (by positivity)]
    have e : x.den2 - (bitlen x.num - 53) + (bitlen x.num - 53) = x.den2 :=
      Nat.sub_add_cancel h2
    calc (rintNE x.num (2 ^ (bitlen x.num - 53)) : ℚ) * 2 ^ x.den2
        = rintNE x.num (2 ^ (bitlen x.num - 53)) *
          (2 ^ (x.den2 - (bitlen x.num - 53)) * 2 ^ (bitlen x.num - 53)) := by
          rw [← pow_add, e]
      _ = rintNE x.num (2 ^ (bitlen x.num - 53)) * 2 ^ (bitlen x.num - 53) *
          2 ^ (x.den2 - (bitlen x.num - 53)) := by ring
  · show ((rintNE x.num (2 ^ (bitlen x.num - 53)) *
      2 ^ (bitlen x.num - 53 - x.den2) : Nat) : ℚ) / 2 ^ (0 : Nat) = _
    push_cast
    rw [div_eq_div_iff (by positivity) (by positivity)]
    have e : bitlen x.num - 53 - x.den2 + x.den2 = bitlen x.num - 53 :=
      Nat.sub_add_cancel (by omega)
    calc (rintNE x.num (2 ^ (bitlen x.num - 53)) : ℚ) *
          2 ^ (bitlen x.num - 53 - x.den2) * 2 ^ x.den2
        = rintNE x.num (2 ^ (bitlen x.num - 53)) *
          2 ^ (bitlen x.num - 53 - x.den2 + x.den2) := by rw [pow_add]; ring
      _ = rintNE x.num (2 ^ (bitlen x.num - 53)) *
          2 ^ (bitlen x.num - 53) * 2 ^ (0 : Nat) := by rw [e]; ring

theorem bitlen_le_of_lt {n k : Nat} (hk : k ≤ 256) (h : n < 2 ^ k) :
    bitlen n ≤ k := by
  rcases Nat.eq_zero_or_pos n with h0 | h0
  · rw [h0, bitlen_zero]
    omega
  · have hspec := bitlen_spec n h0
      (lt_of_lt_of_le h (Nat.pow_le_pow_right (by norm_num) hk))
    by_contra hc
    have hk1 : k ≤ bitlen n - 1 := by omega
    have := Nat.pow_le_pow_right (show 0 < 2 by norm_num) hk1
    omega

theorem bitlen_mono {a b : Nat} (h : a ≤ b) (hb : b < 2 ^ 256) :
    bitlen a ≤ bitlen b := by
  rcases Nat.eq_zero_or_pos a with h0 | h0
  · rw [h0, bitlen_zero]
    omega
  · have hb0 : 0 < b := by omega
    have hsa := bitlen_spec a h0 (by omega)
    have hsb := bitlen_spec b hb0 hb
    by_contra hc
    have : bitlen b ≤ bitlen a - 1 := by omega
    have := Nat.pow_le_pow_right (show 0 < 2 by norm_num) this
    omega

theorem roundNum_eq_of_le {a : Nat} (ha : bitlen a ≤ 53) : roundNum a = a :=
  if_pos ha

theorem roundNum_zero : roundNum 0 = 0 :=
  roundNum_eq_of_le (by rw [bitlen_zero]; omega)

theorem roundNum_ge_pow {a : Nat} (ha : 53 < bitlen a) (h : a < 2 ^ 256) :
    2 ^ (bitlen a - 1) ≤ roundNum a := by
  have h0 : 0 < a := by
    by_contra hc
    have : a = 0 := by omega
    rw [this, bitlen_zero] at ha
    omega
  obtain ⟨hlo, hhi⟩ := bitlen_spec a h0 h
  rw [roundNum, if_neg (by omega)]
  have hBpos : 0 < 2 ^ (bitlen a - 53) := Nat.pos_pow_of_pos _ (by norm_num)
  have hdiv : 2 ^ 52 ≤ a / 2 ^ (bitlen a - 53) := by
    rw [Nat.le_div_iff_mul_le hBpos]
    calc 2 ^ 52 * 2 ^ (bitlen a - 53) = 2 ^ (52 + (bitlen a - 53)) := by
          rw [pow_add]
      _ = 2 ^ (bitlen a - 1) := by congr 1; omega
      _ ≤ a := hlo
  calc 2 ^ (bitlen a - 1) = 2 ^ 52 * 2 ^ (bitlen a - 53) := by
        rw [← pow_add]; congr 1; omega
    _ ≤ a / 2 ^ (bitlen a - 53) * 2 ^ (bitlen a - 53) :=
        Nat.mul_le_mul_right _ hdiv
    _ ≤ rintNE a (2 ^ (bitlen a - 53)) * 2 ^ (bitlen a - 53) :=
        Nat.mul_le_mul_right _ (rintNE_lower a _)

theorem roundNum_le_pow {a : Nat} (ha : 53 < bitlen a) (h : a < 2 ^ 256) :
    roundNum a ≤ 2 ^ bitlen a := by
  have h0 : 0 < a := by
    by_contra hc
    have : a = 0 := by omega
    rw [this, bitlen_zero] at ha
    omega
  obtain ⟨hlo, hhi⟩ := bitlen_spec a h0 h
  rw [roundNum, if_neg (by omega)]
  have hBpos : 0 < 2 ^ (bitlen a - 53) := Nat.pos_pow_of_pos _ (by norm_num)
  have hdiv : a / 2 ^ (bitlen a - 53) ≤ 2 ^ 53 - 1 := by
    have : a / 2 ^ (bitlen a - 53) < 2 ^ 53 := by
      rw [Nat.div_lt_iff_lt_mul hBpos]
      calc a < 2 ^ bitlen a := hhi
        _ = 2 ^ 53 * 2 ^ (bitlen a - 53) := by rw [← pow_add]; congr 1; omega
    omega
  calc rintNE a (2 ^ (bitlen a - 53)) * 2 ^ (bitlen a - 53)
      ≤ (a / 2 ^ (bitlen a - 53) + 1) * 2 ^ (bitlen a - 53) :=
        Nat.mul_le_mul_right _ (rintNE_upper a _)
    _ ≤ 2 ^ 53 * 2 ^ (bitlen a - 53) := Nat.mul_le_mul_right _ (by omega)
    _ = 2 ^ bitlen a := by rw [← pow_add]; congr 1; omega

theorem roundNum_mono {a₁ a₂ : Nat} (h : a₁ ≤ a₂) (h₂ : a₂ < 2 ^ 256) :
    roundNum a₁ ≤ roundNum a₂ := by
  have h₁ : a₁ < 2 ^ 256 := by omega
  have hb := bitlen_mono h h₂
  by_cases hb2 : bitlen a₂ ≤ 53
  · rw [roundNum_eq_of_le (by omega), roundNum_eq_of_le hb2]
    exact h
  · push_neg at hb2
    by_cases hb1 : bitlen a₁ ≤ 53
    · have ha1 : a₁ < 2 ^ 53 := by
        rcases Nat.eq_zero_or_pos a₁ with h0 | h0
        · rw [h0]; positivity
        · obtain ⟨_, hhi⟩ := bitlen_spec a₁ h0 h₁
          exact lt_of_lt_of_le hhi (Nat.pow_le_pow_right (by norm_num) hb1)
      rw [roundNum_eq_of_le hb1]
      calc a₁ ≤ 2 ^ 53 := le_of_lt ha1
        _ ≤ 2 ^ (bitlen a₂ - 1) :=
            Nat.pow_le_pow_right (by norm_num) (by omega)
        _ ≤ roundNum a₂ := roundNum_ge_pow hb2 h₂
    · push_neg at hb1
      by_cases hbeq : bitlen a₁ = bitlen a₂
      · rw [roundNum, if_neg (by omega), roundNum, if_neg (by omega), hbeq]
        exact Nat.mul_le_mul_right _ (rintNE_mono _
          (Nat.pos_pow_of_pos _ (by norm_num)) h)
      · calc roundNum a₁ ≤ 2 ^ bitlen a₁ := roundNum_le_pow hb1 h₁
          _ ≤ 2 ^ (bitlen a₂ - 1) :=
              Nat.pow_le_pow_right (by norm_num) (by omega)
          _ ≤ roundNum a₂ := roundNum_ge_pow hb2 h₂

theorem dval_nonneg (x : Dyadic) : 0 ≤ dval x := by
  rw [dval]
  positivity

theorem roundNum_le_q (a : Nat) (h : a < 2 ^ 256) :
    (roundNum a : ℚ) ≤ a * (1 + 1 / 2 ^ 53) := by
  by_cases hb : bitlen a ≤ 53
  · rw [roundNum_eq_of_le hb]
    have : (0 : ℚ) ≤ a / 2 ^ 53 := by positivity
    nlinarith [Nat.cast_nonneg (α := ℚ) a]
  · push_neg at hb
    have h0 : 0 < a := by
      by_contra hc
      have : a = 0 := by omega
      rw [this, bitlen_zero] at hb
      omega
    obtain ⟨hlo, _⟩ := bitlen_spec a h0 h
    have hBpos : 0 < 2 ^ (bitlen a - 53) := Nat.pos_pow_of_pos _ (by norm_num)
    have hnat1 : 2 * roundNum a ≤ 2 * a + 2 ^ (bitlen a - 53) := by
      have := rintNE_le a (2 ^ (bitlen a - 53)) hBpos
      rw [roundNum, if_neg (by omega)]
      calc 2 * (rintNE a (2 ^ (bitlen a - 53)) * 2 ^ (bitlen a - 53))
          = 2 * rintNE a (2 ^ (bitlen a - 53)) * 2 ^ (bitlen a - 53) := by
            ring
        _ ≤ 2 * a + 2 ^ (bitlen a - 53) := this
    have hnat2 : 2 ^ 52 * 2 ^ (bitlen a - 53) ≤ a := by
      calc 2 ^ 52 * 2 ^ (bitlen a - 53) = 2 ^ (52 + (bitlen a - 53)) := by
            rw [pow_add]
        _ = 2 ^ (bitlen a - 1) := by congr 1; omega
        _ ≤ a := hlo
    have hq1 : (2 : ℚ) * roundNum a ≤ 2 * a + (2 ^ (bitlen a - 53) : Nat) :=
      by exact_mod_cast hnat1
    have hq2 : (2 : ℚ) ^ 52 * (2 ^ (bitlen a - 53) : Nat) ≤ a := by
      exact_mod_cast hnat2
    have hb53 : (0 : ℚ) < 2 ^ 53 := by positivity
    nlinarith [hq1, hq2]

theorem dfloor_eq_floor (y : Dyadic) : dfloor y = ⌊dval y⌋₊ := by
  rw [dfloor, dval]
  rw [show ((2 : ℚ) ^ y.den2) = ((2 ^ y.den2 : ℕ) : ℚ) by push_cast; ring]
  rw [Nat.floor_div_nat, Nat.floor_natCast]

theorem roundD_num_le (x : Dyadic) (hbd : bitlen x.num ≤ 53 + x.den2)
    (h : x.num < 2 ^ 256) : (roundD x).num ≤ 2 ^ 53 := by
  simp only [roundD]
  split_ifs with h1 h2
  · rcases Nat.eq_zero_or_pos x.num with h0 | h0
    · rw [h0]; positivity
    · obtain ⟨_, hhi⟩ := bitlen_spec x.num h0 h
      calc x.num ≤ 2 ^ bitlen x.num := le_of_lt hhi
        _ ≤ 2 ^ 53 := Nat.pow_le_pow_right (by norm_num) h1
  · show rintNE x.num (2 ^ (bitlen x.num - 53)) ≤ 2 ^ 53
    push_neg at h1
    have h0 : 0 < x.num := by
      by_contra hc
      have : x.num = 0 := by omega
      rw [this, bitlen_zero] at h1
      omega
    obtain ⟨_, hhi⟩ := bitlen_spec x.num h0 h
    have hBpos : 0 < 2 ^ (bitlen x.num - 53) :=
      Nat.pos_pow_of_pos _ (by norm_num)
    have hdiv : x.num / 2 ^ (bitlen x.num - 53) < 2 ^ 53 := by
      rw [Nat.div_lt_iff_lt_mul hBpos]
      calc x.num < 2 ^ bitlen x.num := hhi
        _ = 2 ^ 53 * 2 ^ (bitlen x.num - 53) := by
            rw [← pow_add]; congr 1; omega
    have := rintNE_upper x.num (2 ^ (bitlen x.num - 53))
    omega
  · omega

theorem dval_roundD_le (z : Dyadic) (h : z.num < 2 ^ 256) :
    dval (roundD z) ≤ dval z * (1 + 1 / 2 ^ 53) := by
  rw [dval_roundD, dval]
  have h1 := roundNum_le_q z.num h
  have hpos : (0 : ℚ) < 2 ^ z.den2 := by positivity
  calc (roundNum z.num : ℚ) / 2 ^ z.den2
      ≤ (z.num * (1 + 1 / 2 ^ 53)) / 2 ^ z.den2 := by gcongr
    _ = z.num / 2 ^ z.den2 * (1 + 1 / 2 ^ 53) := by ring

theorem dval_scale (x : Dyadic) (m : Nat) :
    dval ⟨x.num * m, x.den2⟩ = dval x * m := by
  rw [dval, dval]
  push_cast
  ring

theorem dval_fmul_mono (x : Dyadic) {m₁ m₂ : Nat} (hm : m₁ ≤ m₂)
    (hx : x.num * m₂ < 2 ^ 256) :
    dval (fmul x m₁) ≤ dval (fmul x m₂) := by
  rw [fmul, fmul, dval_roundD, dval_roundD]
  have hmono : roundNum (x.num * m₁) ≤ roundNum (x.num * m₂) :=
    roundNum_mono (Nat.mul_le_mul_left _ hm) hx
  have hq : (roundNum (x.num * m₁) : ℚ) ≤ roundNum (x.num * m₂) := by
    exact_mod_cast hmono
  gcongr

theorem c01num_lt : c01num < 2 ^ 53 := by norm_num [c01num]

theorem roundD_c01_num_le {total : Nat} (h2 : total < 2 ^ 53) :
    (roundD ⟨total * c01num, 59⟩).num ≤ 2 ^ 53 := by
  have htN : total * c01num < 2 ^ 106 := by
    calc total * c01num < 2 ^ 53 * 2 ^ 53 :=
        Nat.mul_lt_mul_of_lt_of_le h2 (le_of_lt c01num_lt)
          (Nat.pos_pow_of_pos _ (by norm_num))
    _ = 2 ^ 106 := by norm_num
  exact roundD_num_le ⟨total * c01num, 59⟩
    (by
      have := bitlen_le_of_lt (n := total * c01num) (by norm_num) htN
      simpa using by omega)
    (lt_of_lt_of_le htN (by norm_num))

theorem idxF_lt (total perc : Nat) (h1 : 0 < total) (h2 : total < 2 ^ 53)
    (hm : 100 - perc ≤ 90) : idxF total perc < total := by
  have htN : total * c01num < 2 ^ 106 := by
    calc total * c01num < 2 ^ 53 * 2 ^ 53 :=
        Nat.mul_lt_mul_of_lt_of_le h2 (le_of_lt c01num_lt)
          (Nat.pos_pow_of_pos _ (by norm_num))
    _ = 2 ^ 106 := by norm_num
  set m := 100 - perc with hmdef
  set x := roundD ⟨total * c01num, 59⟩ with hxdef
  have hxnum : x.num ≤ 2 ^ 53 := roundD_c01_num_le h2
  have hxm256 : x.num * m < 2 ^ 256 := by
    calc x.num * m ≤ 2 ^ 53 * 90 := Nat.mul_le_mul hxnum hm
    _ < 2 ^ 256 := by norm_num
  have key : dval (fmul x m) < (total : ℚ) := by
    have e1 : dval (fmul x m) ≤
        dval ⟨x.num * m, x.den2⟩ * (1 + 1 / 2 ^ 53) := by
      rw [fmul]
      exact dval_roundD_le ⟨x.num * m, x.den2⟩ hxm256
    rw [dval_scale] at e1
    have e3 : dval x ≤ dval ⟨total * c01num, 59⟩ * (1 + 1 / 2 ^ 53) := by
      rw [hxdef]
      exact dval_roundD_le ⟨total * c01num, 59⟩
        (lt_of_lt_of_le htN (by norm_num))
    have e4 : dval ⟨total * c01num, (59 : Nat)⟩ =
        (total : ℚ) * c01num / 2 ^ 59 := by
      rw [dval]
      push_cast
      ring
    rw [e4] at e3
    have hmq : (m : ℚ) ≤ 90 := by exact_mod_cast hm
    have hxq : (0 : ℚ) ≤ dval x := dval_nonneg x
    have htq : (0 : ℚ) < total := by exact_mod_cast h1
    have hfinal : (c01num : ℚ) * 90 * (1 + 1 / 2 ^ 53) ^ 2 / 2 ^ 59 < 1 := by
      norm_num [c01num]
    calc dval (fmul x m) ≤ dval x * m * (1 + 1 / 2 ^ 53) := e1
      _ ≤ ((total : ℚ) * c01num / 2 ^ 59 * (1 + 1 / 2 ^ 53)) * m *
          (1 + 1 / 2 ^ 53) := by
          have hmq0 : (0 : ℚ) ≤ m := by positivity
          have he : (0 : ℚ) ≤ 1 + 1 / 2 ^ 53 := by positivity
          exact mul_le_mul_of_nonneg_right
            (mul_le_mul_of_nonneg_right e3 hmq0) he
      _ = (total : ℚ) * (c01num * m * (1 + 1 / 2 ^ 53) ^ 2 / 2 ^ 59) := by
          ring
      _ ≤ (total : ℚ) * (c01num * 90 * (1 + 1 / 2 ^ 53) ^ 2 / 2 ^ 59) := by
          gcongr
      _ < (total : ℚ) * 1 := by
          exact mul_lt_mul_of_pos_left hfinal htq
      _ = total := mul_one _
  show dfloor (fmul x m) < total
  rw [dfloor_eq_floor]
  exact (Nat.floor_lt (dval_nonneg _)).mpr key

theorem idxF_anti (total : Nat) (h2 : total < 2 ^ 53) {p q : Nat}
    (hpq : 100 - p ≤ 100 - q) (hq90 : 100 - q ≤ 100) :
    idxF total p ≤ idxF total q := by
  set x := roundD ⟨total * c01num, 59⟩ with hxdef
  have hxnum : x.num ≤ 2 ^ 53 := roundD_c01_num_le h2
  show dfloor (fmul x (100 - p)) ≤ dfloor (fmul x (100 - q))
  rw [dfloor_eq_floor, dfloor_eq_floor]
  exact Nat.floor_mono (dval_fmul_mono x hpq
    (by calc x.num * (100 - q) ≤ 2 ^ 53 * 100 := Nat.mul_le_mul hxnum hq90
        _ < 2 ^ 256 := by norm_num))

theorem idxF_100 (total : Nat) : idxF total 100 = 0 := by
  rw [idxF]
  rw [show (100 : Nat) - 100 = 0 from rfl]
  rw [fmul]
  rw [show (roundD ⟨total * c01num, 59⟩).num * 0 = 0 from Nat.mul_zero _]
  have hr : roundD ⟨0, (roundD ⟨total * c01num, 59⟩).den2⟩ =
      ⟨0, (roundD ⟨total * c01num, 59⟩).den2⟩ := by
    simp only [roundD]
    simp [bitlen_zero]
  rw [hr, dfloor]
  exact Nat.zero_div _

/-- C1 counterexample: with 58 values, the P=50 row is reported from
index 28, one below floor(58 * (100 - 50) / 100) = 29, the idealized
index of the documentation formula: the double-precision value of
58 * 0.01 * 50 is 28.999999999999996 and math.floor gives 28, so the
reported value (172 here) differs from the value at the exact index
(171 here). -/
theorem C1_counterexample :
    idxF 58 50 = 28 ∧
    percIndexExact 58 50 = 29 ∧
    (50, some (172 : Int)) ∈
      percTableF ((List.range 58).map fun i => (200 - (i : Int))) ∧
    ((List.range 58).map fun i => (200 - (i : Int)))[29]? = some 171 ∧
    (172 : Int) ≠ 171 ∧
    ((List.range 58).map fun i => (200 - (i : Int))).Sorted (· ≥ ·) ∧
    ((List.range 58).map fun i => (200 - (i : Int))) ≠ [] := by
  exact ⟨by decide, by decide, by decide, by decide, by decide, by decide,
    by decide⟩

/-- C1 (amended): for every non-empty descending-sorted value list of
length below 2 ^ 53, the rendered table reports, for each percentile P of
the fixed descending list, the value at the index obtained by evaluating
total * 0.01 * (100 - P) in binary64 floating point and flooring (which
can sit one below the exact floor(total * (100 - P) / 100), as the
counterexample shows); that index always lies inside [0, total - 1] so
the clamp of the documentation is a no-op; P = 100 always maps to index 0
and reports the head, which is the maximum of the list; and as P
decreases the computed index is non-decreasing. -/
theorem C1_percentile_table (vs : List Int) (hne : vs ≠ [])
    (hs : vs.Sorted (· ≥ ·)) (hlen : vs.length < 2 ^ 53) :
    (∀ p ∈ percentage_list,
      idxF vs.length p < vs.length ∧
      min (idxF vs.length p) (vs.length - 1) = idxF vs.length p ∧
      (p, vs[idxF vs.length p]?) ∈ percTableF vs) ∧
    idxF vs.length 100 = 0 ∧
    vs[idxF vs.length 100]? = vs.head? ∧
    (∀ x ∈ vs, ∀ mx ∈ vs.head?, x ≤ mx) ∧
    (∀ p ∈ percentage_list, ∀ q ∈ percentage_list, q ≤ p →
      idxF vs.length p ≤ idxF vs.length q) := by
  have hlen0 : 0 < vs.length := List.length_pos.mpr hne
  refine ⟨?_, idxF_100 _, ?_, ?_, ?_⟩
  · intro p hp
    have hm : 100 - p ≤ 90 := by fin_cases hp <;> norm_num
    have hlt := idxF_lt vs.length p hlen0 hlen hm
    exact ⟨hlt, Nat.min_eq_left (by omega),
      List.mem_map_of_mem _ hp⟩
  · rw [idxF_100]
    cases vs with
    | nil => exact absurd rfl hne
    | cons a t => simp
  · intro x hx mx hmx
    cases vs with
    | nil => simp at hmx
    | cons a t =>
      simp only [List.head?_cons, Option.mem_def, Option.some.injEq] at hmx
      subst hmx
      rcases List.mem_cons.mp hx with h | h
      · exact le_of_eq h
      · exact List.rel_of_sorted_cons hs x h
  · intro p hp q hq hqp
    exact idxF_anti vs.length hlen (Nat.sub_le_sub_left hqp 100)
      (Nat.sub_le 100 q)

/-- Witness for C1 on the descending list 100, 90, 80. -/
theorem C1_witness :
    (([100, 90, 80] : List Int) ≠ [] ∧
     ([100, 90, 80] : List Int).Sorted (· ≥ ·) ∧
     ([100, 90, 80] : List Int).length < 2 ^ 53) ∧
    idxF ([100, 90, 80] : List Int).length 100 = 0 ∧
    ([100, 90, 80] : List Int)[idxF ([100, 90, 80] : List Int).length 100]?
      = ([100, 90, 80] : List Int).head? :=
  ⟨⟨by decide, by decide, by decide⟩,
   (C1_percentile_table [100, 90, 80] (by decide) (by decide)
     (by decide)).2.1,
   (C1_percentile_table [100, 90, 80] (by decide) (by decide)
     (by decide)).2.2.1⟩
